import Mathlib

/-!
Verification of the diff-segment analysis core of the haiku-format-bot
repository: the `Segment`/`FormatSegment` value types and the `File` content
model from `formatchecker/models.py`, and the unified-diff hunk parser
`parse_diff_segments` from `formatchecker/llvm.py` (together with the parts
of Python's `difflib.unified_diff` that the model calls with `n=0`).

All definitions are shallow embeddings of the Python source: machine
integers are `Int` (Python `int` is unbounded, so no wrap-around), optional
values are `Option`, fallible constructors return `Except`, and mutation of
the `File` object's caches is explicit state passing.
-/

namespace HaikuFormatBot

/-- The error taxonomy of the spec.  In the Python source `validationError`
and `notARangeError` are both `ValueError` (raised at the two distinct raise
sites), `preconditionError` is `RuntimeError`, and `keyError` is the
`KeyError` escaping from `parse_diff_segments(diff)['file']`. -/
inductive Err where
  | validationError
  | notARangeError
  | preconditionError
  | keyError
  deriving DecidableEq, Repr

/-- `Segment` from `models.py`: an inclusive 1-based line range with an
optional end (absent end = insertion point).  The constructor validation is
in `mkSegment`; the raw structure holds the fields `_start`/`_end`. -/
structure Segment where
  start : Int
  stop : Option Int
  deriving DecidableEq, Repr

/-- `Segment.__init__`: raises `ValueError` when `start < 1`, or when `end`
is present with `end < 1` or `end < start`. -/
def mkSegment (start : Int) (stop : Option Int) : Except Err Segment :=
  if start < 1 then .error .validationError
  else
    match stop with
    | none => .ok ⟨start, none⟩
    | some e =>
      if e < 1 then .error .validationError
      else if e < start then .error .validationError
      else .ok ⟨start, some e⟩

/-- `Segment.format_range`: `"%i:%i" % (start, end)`, raising `ValueError`
(`notARangeError` in the spec's taxonomy) when `end` is `None`. -/
def Segment.format_range (s : Segment) : Except Err String :=
  match s.stop with
  | none => .error .notARangeError
  | some e => .ok (toString s.start ++ ":" ++ toString e)

inductive ReformatType where
  | INSERTION
  | MODIFICATION
  | DELETION
  deriving DecidableEq, Repr

/-- `FormatSegment` from `models.py`: a `Segment` subclass carrying the
replacement lines. -/
structure FormatSegment where
  start : Int
  stop : Option Int
  formatted_content : List String
  deriving DecidableEq, Repr

/-- `FormatSegment.__init__`: first checks the insertion case (end absent
with empty content raises `ValueError`), then delegates to
`Segment.__init__` for the range checks. -/
def mkFormatSegment (start : Int) (stop : Option Int) (content : List String) :
    Except Err FormatSegment :=
  if stop = none ∧ content.length = 0 then .error .validationError
  else
    match mkSegment start stop with
    | .error e => .error e
    | .ok _ => .ok ⟨start, stop, content⟩

/-- `FormatSegment.reformat_type`: derived classification. -/
def FormatSegment.reformat_type (f : FormatSegment) : ReformatType :=
  match f.stop with
  | none => .INSERTION
  | some _ => if f.formatted_content.length = 0 then .DELETION else .MODIFICATION

/-- A runtime value that is either a plain `Segment` or a `FormatSegment`,
used to express Python's `==` dispatch between the two classes. -/
inductive SegVal where
  | seg (s : Segment)
  | fseg (f : FormatSegment)
  deriving DecidableEq, Repr

/-- Python `==` on `Segment`/`FormatSegment` values, following CPython
dispatch on Python 3.11 (the repository's era):
* `Segment == Segment` uses `Segment.__eq__`: equal start and end.
* mixed comparisons: since `FormatSegment` is a proper subclass overriding
  `__eq__`, the `FormatSegment` operand's `__eq__` runs first; its
  `isinstance(other, FormatSegment)` check fails, so it returns `False`.
* `FormatSegment == FormatSegment` runs `FormatSegment.__eq__`, whose body
  is `super(Segment).__eq__(other) and self.formatted_content ==
  other.formatted_content`.  `super(Segment)` is an unbound super object, so
  `super(Segment).__eq__(other)` is `object.__eq__` of the proxy, which
  returns `NotImplemented`; `NotImplemented` is truthy (with a
  `DeprecationWarning`), so the comparison degenerates to comparing only
  `formatted_content`. -/
def pyEq : SegVal → SegVal → Bool
  | .seg a, .seg b => a.start = b.start ∧ a.stop = b.stop
  | .seg _, .fseg _ => false
  | .fseg _, .seg _ => false
  | .fseg a, .fseg b => a.formatted_content = b.formatted_content

/-! ## The hunk parser (`parse_diff_segments` in `llvm.py`) -/

/-- Numeric value of a digit string, as produced by Python's `int()` on a
run of `\d` characters. -/
def valDigits (ds : List Char) : Nat :=
  ds.foldl (fun a c => 10 * a + (c.toNat - 48)) 0

/-- Consume the maximal leading run of digits (the regex `(\d+)`); fails if
there is none. -/
def parseNatPrefix (cs : List Char) : Option (Nat × List Char) :=
  let ds := cs.takeWhile Char.isDigit
  if ds.isEmpty then none
  else some (valDigits ds, cs.dropWhile Char.isDigit)

/-- The optional count group `(?:,(\d+))?`.  If a `,` followed by digits is
present, the group matches those digits; otherwise the group is skipped and
the position is unchanged.  (If the group matches but the rest of the regex
then fails, the engine would backtrack to the skipped-group alternative,
which immediately fails on the `,`; so committing here is equivalent.) -/
def tryCount (cs : List Char) : Option Nat × List Char :=
  match cs with
  | ',' :: rest =>
    match parseNatPrefix rest with
    | some (n, rest') => (some n, rest')
    | none => (none, ',' :: rest)
  | _ => (none, cs)

/-- A parsed hunk tuple `(a_start, a_end, b_start, b_end)`. -/
abbrev DiffTuple := Int × Option Int × Int × Option Int

/-- The literal ` \+` in the middle of the hunk regex. -/
def expectSpacePlus : List Char → Option (List Char)
  | ' ' :: '+' :: rest => some rest
  | _ => none

/-- The end-point computation from the loop body of `parse_diff_segments`:
`line_count` defaults to 1, a present count of 0 makes the end absent,
otherwise `end = start + line_count - 1`. -/
def hunkEndOf (s : Nat) : Option Nat → Option Int
  | none => some (s : Int)
  | some c => if c = 0 then none else some ((s : Int) + (c : Int) - 1)

/-- Model of matching `^@@ -(\d+)(?:,(\d+))? \+(\d+)(?:,(\d+))?` against a
line and computing the tuple exactly as the body of the loop in
`parse_diff_segments` does. -/
def parseHunkLine (cs : List Char) : Option DiffTuple :=
  match cs with
  | '@' :: '@' :: ' ' :: '-' :: rest =>
    (parseNatPrefix rest).bind fun p =>
      let xr := tryCount p.2
      (expectSpacePlus xr.2).bind fun rest2 =>
        (parseNatPrefix rest2).bind fun q =>
          some ((p.1 : Int), hunkEndOf p.1 xr.1, (q.1 : Int),
            hunkEndOf q.1 (tryCount q.2).1)
  | _ => none

/-- Python `\s` for the ASCII range (our inputs are ASCII). -/
def isPySpace (c : Char) : Bool :=
  c = ' ' ∨ c = '\t' ∨ c = '\n' ∨ c = '\r' ∨ c = '\x0b' ∨ c = '\x0c'

/-- After `+++ `, the group `(.*?/){1}` consumes the shortest prefix ending
in `/` (with `.` not crossing a newline), and `(\S*)` then captures the
maximal run of non-whitespace characters: scan for the first `/` before any
newline, then take non-space characters. -/
def findSlash : List Char → Option String
  | [] => none
  | '\n' :: _ => none
  | '/' :: rest => some ⟨rest.takeWhile (fun c => ¬ isPySpace c)⟩
  | _ :: rest => findSlash rest

/-- Model of matching `^\+\+\+ (.*?/){1}(\S*)` and returning group 2 (the
filename after stripping one leading path segment). -/
def parseFileLine (cs : List Char) : Option String :=
  match cs with
  | '+' :: '+' :: '+' :: ' ' :: rest => findSlash rest
  | _ => none

/-- The result dict of `parse_diff_segments`: a Python dict is
insertion-ordered, modelled as an association list. -/
abbrev SegMap := List (String × List DiffTuple)

/-- `lines_by_file.setdefault(filename, []).extend([t])`. -/
def addTuple (m : SegMap) (f : String) (t : DiffTuple) : SegMap :=
  match m with
  | [] => [(f, [t])]
  | (g, ts) :: rest =>
    if g = f then (g, ts ++ [t]) :: rest else (g, ts) :: addTuple rest f t

def lookupSegMap (m : SegMap) (f : String) : Option (List DiffTuple) :=
  match m with
  | [] => none
  | (g, ts) :: rest => if g = f then some ts else lookupSegMap rest f

/-- One iteration of the loop in `parse_diff_segments`: try the filename
regex (updating the current filename), skip the line if no filename is
known yet, then try the hunk regex and record the tuple. -/
def parseStep (st : Option String × SegMap) (line : String) :
    Option String × SegMap :=
  let fn? := match parseFileLine line.data with
    | some f => some f
    | none => st.1
  match fn? with
  | none => (none, st.2)
  | some f =>
    match parseHunkLine line.data with
    | some t => (some f, addTuple st.2 f t)
    | none => (some f, st.2)

/-- `parse_diff_segments` from `llvm.py`, over an already-split line
iterator. -/
def parse_diff_segments (lines : List String) : SegMap :=
  (lines.foldl parseStep (none, [])).2

/-! ## Decimal rendering of naturals

Python renders the hunk-header numbers with `str(int)`; for non-negative
integers that is the canonical decimal numeral, which `natChars` produces. -/

def natCharsAux : Nat → Nat → List Char
  | 0, _ => []
  | fuel + 1, n =>
    if n < 10 then [Nat.digitChar n]
    else natCharsAux fuel (n / 10) ++ [Nat.digitChar (n % 10)]

def natChars (n : Nat) : List Char :=
  natCharsAux (n + 1) n

/-! ## Model of `difflib` as used by the source

`models.py` calls `difflib.unified_diff(a, b, fromfile=..., tofile=...,
n=0)`.  The definitions below translate the parts of CPython's `difflib`
that this call exercises: `SequenceMatcher` with `isjunk=None` (so the
junk set `bjunk` is empty; the two junk-extension loops of
`find_longest_match` are no-ops and are omitted), `autojunk=True` (the
popular-element purge of `__chain_b` is kept), `get_matching_blocks`,
`get_opcodes`, `get_grouped_opcodes(0)` and `unified_diff` itself with
`lineterm='\n'` and no file dates. -/

inductive Tag where
  | replace | delete | insert | equal
  deriving DecidableEq, Repr

structure Opcode where
  tag : Tag
  i1 : Nat
  i2 : Nat
  j1 : Nat
  j2 : Nat
  deriving DecidableEq, Repr

/-- `b2j` lookup: the (ascending) list of indices at which `x` occurs in
`b`, after the `autojunk` purge of popular elements (`__chain_b`): for
`len(b) >= 200`, an element occurring more than `len(b) // 100 + 1` times
is dropped from `b2j`. -/
def b2jGet (b : List String) (x : String) : List Nat :=
  let idxs := (List.range b.length).filter (fun j => b.getD j "" = x)
  if b.length ≥ 200 ∧ idxs.length > b.length / 100 + 1 then [] else idxs

/-- Inner loop of the `find_longest_match` scan for one value of `i`:
builds `newj2len` and updates the running best `(besti, bestj, bestsize)`.
`js` is the `b2j` entry for `a[i]` restricted to `blo ≤ j < bhi` (the
`continue`/`break` in the source, equivalent to a filter since the index
list is ascending). -/
def flmInner (j2len : List (Nat × Nat)) (i : Nat) (js : List Nat)
    (best : Nat × Nat × Nat) : List (Nat × Nat) × (Nat × Nat × Nat) :=
  js.foldl
    (fun st j =>
      let prev := if j = 0 then 0 else (List.lookup (j - 1) j2len).getD 0
      let k := prev + 1
      let best := st.2
      let best := if k > best.2.2 then (i + 1 - k, j + 1 - k, k) else best
      ((j, k) :: st.1, best))
    ([], best)

/-- The `while besti > alo and bestj > blo and a[besti-1] == b[bestj-1]`
extension loop (the `not isbjunk(...)` conjunct is vacuous as `bjunk` is
empty).  Fuel-driven; the caller passes enough fuel. -/
def extendLeft (a b : List String) (alo blo : Nat) :
    Nat → Nat × Nat × Nat → Nat × Nat × Nat
  | 0, st => st
  | fuel + 1, (bi, bj, k) =>
    if alo < bi ∧ blo < bj ∧ a.getD (bi - 1) "" = b.getD (bj - 1) "" then
      extendLeft a b alo blo fuel (bi - 1, bj - 1, k + 1)
    else (bi, bj, k)

/-- The symmetric right-extension loop. -/
def extendRight (a b : List String) (ahi bhi : Nat) :
    Nat → Nat × Nat × Nat → Nat × Nat × Nat
  | 0, st => st
  | fuel + 1, (bi, bj, k) =>
    if bi + k < ahi ∧ bj + k < bhi ∧ a.getD (bi + k) "" = b.getD (bj + k) "" then
      extendRight a b ahi bhi fuel (bi, bj, k + 1)
    else (bi, bj, k)

/-- `SequenceMatcher.find_longest_match(alo, ahi, blo, bhi)`. -/
def findLongestMatch (a b : List String) (alo ahi blo bhi : Nat) :
    Nat × Nat × Nat :=
  let scan := (List.range' alo (ahi - alo)).foldl
    (fun (st : List (Nat × Nat) × (Nat × Nat × Nat)) i =>
      let js := (b2jGet b (a.getD i "")).filter (fun j => decide (blo ≤ j ∧ j < bhi))
      flmInner st.1 i js st.2)
    ([], (alo, blo, 0))
  let best := extendLeft a b alo blo (scan.2.1 + 1) scan.2
  extendRight a b ahi bhi (ahi + 1) best

/-- The queue-driven divide in `get_matching_blocks`.  The source pushes
the two subranges on a LIFO queue and sorts the collected blocks at the
end; since every block of the left subrange precedes `(i, j, k)` and every
block of the right subrange follows it, that is the same list as this
in-order recursion produces.  Fuel-driven: each recursive call works on a
strictly smaller `a`-range, so `a.length + 1` fuel suffices. -/
def matchingBlocksRec (a b : List String) :
    Nat → Nat → Nat → Nat → Nat → List (Nat × Nat × Nat)
  | 0, _, _, _, _ => []
  | fuel + 1, alo, ahi, blo, bhi =>
    let (i, j, k) := findLongestMatch a b alo ahi blo bhi
    if k = 0 then []
    else
      (if alo < i ∧ blo < j then matchingBlocksRec a b fuel alo i blo j else [])
        ++ [(i, j, k)]
        ++ (if i + k < ahi ∧ j + k < bhi then
              matchingBlocksRec a b fuel (i + k) ahi (j + k) bhi
            else [])

/-- The adjacent-block merge at the end of `get_matching_blocks`. -/
def nonAdjacentLoop : Nat × Nat × Nat → List (Nat × Nat × Nat) → List (Nat × Nat × Nat)
  | (i1, j1, k1), [] => if k1 ≠ 0 then [(i1, j1, k1)] else []
  | (i1, j1, k1), (i2, j2, k2) :: rest =>
    if i1 + k1 = i2 ∧ j1 + k1 = j2 then nonAdjacentLoop (i1, j1, k1 + k2) rest
    else if k1 ≠ 0 then (i1, j1, k1) :: nonAdjacentLoop (i2, j2, k2) rest
    else nonAdjacentLoop (i2, j2, k2) rest

/-- `SequenceMatcher.get_matching_blocks`, with the `(la, lb, 0)` sentinel. -/
def getMatchingBlocks (a b : List String) : List (Nat × Nat × Nat) :=
  nonAdjacentLoop (0, 0, 0)
      (matchingBlocksRec a b (a.length + 1) 0 a.length 0 b.length)
    ++ [(a.length, b.length, 0)]

/-- The loop of `SequenceMatcher.get_opcodes`. -/
def opcodesLoop : Nat → Nat → List (Nat × Nat × Nat) → List Opcode
  | _, _, [] => []
  | i, j, (ai, bj, size) :: rest =>
    (if i < ai ∧ j < bj then [⟨.replace, i, ai, j, bj⟩]
     else if i < ai then [⟨.delete, i, ai, j, bj⟩]
     else if j < bj then [⟨.insert, i, ai, j, bj⟩]
     else [])
      ++ (if size ≠ 0 then [⟨.equal, ai, ai + size, bj, bj + size⟩] else [])
      ++ opcodesLoop (ai + size) (bj + size) rest

def getOpcodes (a b : List String) : List Opcode :=
  opcodesLoop 0 0 (getMatchingBlocks a b)

/-- The head fixup of `get_grouped_opcodes` with `n = 0`:
`codes[0] = tag, max(i1, i2-n), i2, max(j1, j2-n), j2`. -/
def fixHead : List Opcode → List Opcode
  | [] => []
  | c :: rest =>
    if c.tag = .equal then ⟨c.tag, max c.i1 (c.i2 - 0), c.i2, max c.j1 (c.j2 - 0), c.j2⟩ :: rest
    else c :: rest

/-- The tail fixup of `get_grouped_opcodes` with `n = 0`:
`codes[-1] = tag, i1, min(i2, i1+n), j1, min(j2, j1+n)`. -/
def fixLast (l : List Opcode) : List Opcode :=
  match l.getLast? with
  | none => l
  | some c =>
    if c.tag = .equal then
      l.dropLast ++ [⟨c.tag, c.i1, min c.i2 (c.i1 + 0), c.j1, min c.j2 (c.j1 + 0)⟩]
    else l

/-- The grouping loop of `get_grouped_opcodes` with `n = 0` (so `nn = 0`):
a nonempty `equal` opcode closes the current group (truncated to its left
edge) and opens a new one starting at its right edge; at the end the last
group is yielded unless it is a single `equal`. -/
def groupLoop : List Opcode → List Opcode → List (List Opcode)
  | group, [] =>
    if group ≠ [] ∧ ¬(group.length = 1 ∧ (group.headD ⟨.equal, 0, 0, 0, 0⟩).tag = .equal)
    then [group] else []
  | group, c :: rest =>
    if c.tag = .equal ∧ c.i2 - c.i1 > 0 then
      (group ++ [⟨c.tag, c.i1, min c.i2 (c.i1 + 0), c.j1, min c.j2 (c.j1 + 0)⟩])
        :: groupLoop [⟨c.tag, max c.i1 (c.i2 - 0), c.i2, max c.j1 (c.j2 - 0), c.j2⟩] rest
    else groupLoop (group ++ [c]) rest

/-- `SequenceMatcher.get_grouped_opcodes(0)`, including the
`[("equal", 0, 1, 0, 1)]` fallback for an empty opcode list. -/
def groupedOpcodes0 (a b : List String) : List (List Opcode) :=
  let codes := getOpcodes a b
  let codes := if codes = [] then [⟨.equal, 0, 1, 0, 1⟩] else codes
  groupLoop [] (fixLast (fixHead codes))

/-- `difflib._format_range_unified`. -/
def formatRangeUnified (start stop : Nat) : String :=
  let beginning := start + 1
  let length := stop - start
  if length = 1 then ⟨natChars beginning⟩
  else if length = 0 then ⟨natChars start⟩ ++ "," ++ ⟨natChars length⟩
  else ⟨natChars beginning⟩ ++ "," ++ ⟨natChars length⟩

/-- Python list slicing `l[i:j]` for the non-negative indices used in
`unified_diff`'s content lines. -/
def pySliceList {α : Type} (l : List α) (i j : Nat) : List α :=
  (l.take j).drop i

/-- The content lines `unified_diff` emits for one opcode of a group. -/
def opcodeLines (a b : List String) (c : Opcode) : List String :=
  match c.tag with
  | .equal => (pySliceList a c.i1 c.i2).map (fun l => " " ++ l)
  | .replace =>
    (pySliceList a c.i1 c.i2).map (fun l => "-" ++ l)
      ++ (pySliceList b c.j1 c.j2).map (fun l => "+" ++ l)
  | .delete => (pySliceList a c.i1 c.i2).map (fun l => "-" ++ l)
  | .insert => (pySliceList b c.j1 c.j2).map (fun l => "+" ++ l)

/-- The `@@ -r1 +r2 @@` header line of one group. -/
def hunkHeaderLine (group : List Opcode) : String :=
  let first := group.headD ⟨.equal, 0, 0, 0, 0⟩
  let last := group.getLastD ⟨.equal, 0, 0, 0, 0⟩
  "@@ -" ++ formatRangeUnified first.i1 last.i2
    ++ " +" ++ formatRangeUnified first.j1 last.j2 ++ " @@\n"

/-- `difflib.unified_diff(a, b, fromfile, tofile, n=0)` as a line list:
the two `---`/`+++` header lines are emitted once before the first group. -/
def unifiedDiff0 (a b : List String) (fromfile tofile : String) : List String :=
  let groups := groupedOpcodes0 a b
  if groups = [] then []
  else
    ("--- " ++ fromfile ++ "\n") :: ("+++ " ++ tofile ++ "\n")
      :: groups.flatMap (fun g => hunkHeaderLine g :: g.flatMap (opcodeLines a b))

/-! ## The `File` content model (`models.py`)

Mutation of the Python object is modelled by explicit state passing: each
operation returns the new object state together with the exception it
raises, if any.  The `_calculate_*` methods clear the cached segment list
and then append to it inside a loop, so when an exception escapes mid-loop
the cache holds the segments appended so far; the `acc` accumulators below
reproduce that. -/

/-- Python list slicing `l[i:j]` for `int` indices (negative indices count
from the end), as used by `_calculate_formatted_segments`. -/
def pySliceIdx (len : Nat) (i : Int) : Nat :=
  if i < 0 then (if i + len < 0 then 0 else (i + len).toNat) else min i.toNat len

def pySliceInt (l : List String) (i j : Int) : List String :=
  (l.take (pySliceIdx l.length j)).drop (pySliceIdx l.length i)

/-- The loop of `_calculate_patch_segments`: tuples whose `b_end` is `None`
are skipped (`Segment(b_start, b_end)` is only built for present ends). -/
def patchSegLoop : List Segment → List DiffTuple → List Segment × Option Err
  | acc, [] => (acc, none)
  | acc, (_, _, bStart, bEnd) :: rest =>
    match bEnd with
    | none => patchSegLoop acc rest
    | some e =>
      match mkSegment bStart (some e) with
      | .error err => (acc, some err)
      | .ok s => patchSegLoop (acc ++ [s]) rest

/-- `File._calculate_patch_segments`: diff base against patch with zero
context, parse, and collect the after-file ranges.  The `KeyError` from a
difference-free diff is caught (`except KeyError: return`). -/
def calcPatchSegmentsRun (base patch : Option (List String)) :
    List Segment × Option Err :=
  match base, patch with
  | some b, some p =>
    match lookupSegMap (parse_diff_segments (unifiedDiff0 b p "base/file" "patch/file")) "file" with
    | none => ([], none)
    | some tuples => patchSegLoop [] tuples
  | _, _ => ([], none)

/-- The loop of `_calculate_formatted_segments`.  `if not b_end` is a Python
falsiness test: it takes the deletion branch for `b_end` equal to `None`
and for `b_end` equal to `0`. -/
def formatSegLoop (formatted : List String) :
    List FormatSegment → List DiffTuple → List FormatSegment × Option Err
  | acc, [] => (acc, none)
  | acc, (aStart, aEnd, bStart, bEnd) :: rest =>
    if bEnd = none ∨ bEnd = some 0 then
      match mkFormatSegment aStart aEnd [] with
      | .error err => (acc, some err)
      | .ok s => formatSegLoop formatted (acc ++ [s]) rest
    else
      match mkFormatSegment aStart aEnd (pySliceInt formatted (bStart - 1) (bEnd.getD 0)) with
      | .error err => (acc, some err)
      | .ok s => formatSegLoop formatted (acc ++ [s]) rest

/-- `File._calculate_formatted_segments`: diff patch against formatted with
zero context and collect `FormatSegment`s.  Unlike the patch-segment
recompute, the `['file']` subscript is not guarded, so an empty diff raises
`KeyError`. -/
def calcFormattedSegmentsRun (patch formatted : Option (List String)) :
    List FormatSegment × Option Err :=
  match patch, formatted with
  | some p, some f =>
    match lookupSegMap (parse_diff_segments (unifiedDiff0 p f "patch/file" "formatted/file")) "file" with
    | none => ([], some .keyError)
    | some tuples => formatSegLoop f [] tuples
  | _, _ => ([], none)

structure File where
  filename : String
  base_contents : Option (List String)
  patch_contents : Option (List String)
  formatted_contents : Option (List String)
  patch_segments_cache : List Segment
  format_segments_cache : List FormatSegment
  deriving DecidableEq, Repr

/-- `File.__init__(filename, base, patch)`. -/
def File.init (filename : String) (base : Option (List String) := none)
    (patch : Option (List String) := none) : File × Option Err :=
  let r := calcPatchSegmentsRun base patch
  ({ filename := filename, base_contents := base, patch_contents := patch,
     formatted_contents := none, patch_segments_cache := r.1,
     format_segments_cache := [] }, r.2)

/-- The `base_contents` setter: store, then recompute the patch segments
(and only those). -/
def File.set_base_contents (f : File) (v : Option (List String)) :
    File × Option Err :=
  let r := calcPatchSegmentsRun v f.patch_contents
  ({ f with base_contents := v, patch_segments_cache := r.1 }, r.2)

/-- The `patch_contents` setter: store, then recompute the patch segments
(and only those). -/
def File.set_patch_contents (f : File) (v : Option (List String)) :
    File × Option Err :=
  let r := calcPatchSegmentsRun f.base_contents v
  ({ f with patch_contents := v, patch_segments_cache := r.1 }, r.2)

/-- The `formatted_contents` setter: the value is stored only when it
differs from the current `patch_contents` (`if self._patch_contents !=
contents`), then the format segments are recomputed. -/
def File.set_formatted_contents (f : File) (v : Option (List String)) :
    File × Option Err :=
  let f' := if f.patch_contents ≠ v then { f with formatted_contents := v } else f
  let r := calcFormattedSegmentsRun f'.patch_contents f'.formatted_contents
  ({ f' with format_segments_cache := r.1 }, r.2)

/-- The `patch_segments` getter: raises `RuntimeError` (the spec's
`PreconditionError`) when base or patch content is absent. -/
def File.patch_segments (f : File) : Except Err (List Segment) :=
  if f.base_contents = none ∨ f.patch_contents = none then .error .preconditionError
  else .ok f.patch_segments_cache

/-- The `format_segments` getter: raises `RuntimeError` when patch or
formatted content is absent. -/
def File.format_segments (f : File) : Except Err (List FormatSegment) :=
  if f.patch_contents = none ∨ f.formatted_contents = none then .error .preconditionError
  else .ok f.format_segments_cache

/-! ## Lemmas: decimal rendering round-trips through the digit parser -/

theorem digitChar_isDigit {d : Nat} (h : d < 10) : (Nat.digitChar d).isDigit = true := by
  interval_cases d <;> decide

theorem digitChar_toNat {d : Nat} (h : d < 10) : (Nat.digitChar d).toNat - 48 = d := by
  interval_cases d <;> decide

theorem natCharsAux_congr :
    ∀ fuel1 fuel2 n, n < fuel1 → n < fuel2 →
      natCharsAux fuel1 n = natCharsAux fuel2 n := by
  intro fuel1
  induction fuel1 with
  | zero => omega
  | succ fuel1 ih =>
    intro fuel2 n h1 h2
    cases fuel2 with
    | zero => omega
    | succ fuel2 =>
      show (if n < 10 then _ else _) = (if n < 10 then _ else _)
      split
      · rfl
      · next h =>
        have hd : n / 10 < n := Nat.div_lt_self (by omega) (by omega)
        rw [ih fuel2 (n / 10) (by omega) (by omega)]

/-- The recursion equation of the decimal renderer. -/
theorem natChars_unfold (n : Nat) :
    natChars n = if n < 10 then [Nat.digitChar n]
      else natChars (n / 10) ++ [Nat.digitChar (n % 10)] := by
  show natCharsAux (n + 1) n = _
  show (if n < 10 then _ else natCharsAux n (n / 10) ++ _) = _
  split
  · rfl
  · next h =>
    have hd : n / 10 < n := Nat.div_lt_self (by omega) (by omega)
    rw [natCharsAux_congr n (n / 10 + 1) (n / 10) (by omega) (by omega)]
    rfl

theorem natChars_ne_nil (n : Nat) : natChars n ≠ [] := by
  rw [natChars_unfold]
  split <;> simp

theorem natChars_isDigit (n : Nat) : ∀ c ∈ natChars n, c.isDigit = true := by
  induction n using Nat.strong_induction_on with
  | _ n ih =>
    rw [natChars_unfold]
    split
    · next h => simpa using digitChar_isDigit h
    · next h =>
      intro c hc
      rcases List.mem_append.mp hc with h1 | h1
      · exact ih (n / 10) (Nat.div_lt_self (by omega) (by omega)) c h1
      · simp only [List.mem_singleton] at h1
        subst h1
        exact digitChar_isDigit (Nat.mod_lt _ (by omega))

theorem valDigits_append_singleton (xs : List Char) (c : Char) :
    valDigits (xs ++ [c]) = 10 * valDigits xs + (c.toNat - 48) := by
  simp [valDigits, List.foldl_append]

theorem valDigits_natChars (n : Nat) : valDigits (natChars n) = n := by
  induction n using Nat.strong_induction_on with
  | _ n ih =>
    rw [natChars_unfold]
    split
    · next h =>
      simp [valDigits, digitChar_toNat h]
    · next h =>
      rw [valDigits_append_singleton,
        ih (n / 10) (Nat.div_lt_self (by omega) (by omega)),
        digitChar_toNat (Nat.mod_lt _ (by omega))]
      omega

theorem takeWhile_append_all {p : Char → Bool} (xs ys : List Char)
    (h : ∀ c ∈ xs, p c = true) :
    (xs ++ ys).takeWhile p = xs ++ ys.takeWhile p := by
  induction xs with
  | nil => simp
  | cons c cs ih =>
    have hc : p c = true := h c (by simp)
    simp only [List.cons_append, List.takeWhile_cons, hc, if_true]
    rw [ih (fun d hd => h d (by simp [hd]))]

theorem dropWhile_append_all {p : Char → Bool} (xs ys : List Char)
    (h : ∀ c ∈ xs, p c = true) :
    (xs ++ ys).dropWhile p = ys.dropWhile p := by
  induction xs with
  | nil => simp
  | cons c cs ih =>
    have hc : p c = true := h c (by simp)
    simp only [List.cons_append, List.dropWhile_cons, hc, if_true]
    exact ih (fun d hd => h d (by simp [hd]))

/-- The first character of `rest` (if any) is not a digit. -/
def HeadNotDigit (rest : List Char) : Prop :=
  ∀ c, rest.head? = some c → c.isDigit = false

theorem takeWhile_digit_eq_nil {rest : List Char} (h : HeadNotDigit rest) :
    rest.takeWhile Char.isDigit = [] := by
  cases rest with
  | nil => rfl
  | cons c cs => simp [List.takeWhile_cons, h c rfl]

theorem dropWhile_digit_eq_self {rest : List Char} (h : HeadNotDigit rest) :
    rest.dropWhile Char.isDigit = rest := by
  cases rest with
  | nil => rfl
  | cons c cs => simp [List.dropWhile_cons, h c rfl]

theorem parseNatPrefix_natChars (n : Nat) {rest : List Char}
    (h : HeadNotDigit rest) :
    parseNatPrefix (natChars n ++ rest) = some (n, rest) := by
  unfold parseNatPrefix
  rw [takeWhile_append_all _ _ (natChars_isDigit n),
    dropWhile_append_all _ _ (natChars_isDigit n),
    takeWhile_digit_eq_nil h, dropWhile_digit_eq_self h,
    List.append_nil]
  simp [natChars_ne_nil n, List.isEmpty_iff, valDigits_natChars]

theorem headNotDigit_cons {c : Char} (h : c.isDigit = false) (cs : List Char) :
    HeadNotDigit (c :: cs) := by
  intro d hd
  simp only [List.head?_cons, Option.some.injEq] at hd
  exact hd ▸ h

/-- The optional `,count` part of a hunk-range line. -/
def optCountChars : Option Nat → List Char
  | none => []
  | some x => ',' :: natChars x

/-- A hunk-range line `@@ -a[,x] +b[,y]` followed by `tail`, as characters:
the shape the claim about the parser quantifies over. -/
def claimHunkChars (a : Nat) (x? : Option Nat) (b : Nat) (y? : Option Nat)
    (tail : List Char) : List Char :=
  '@' :: '@' :: ' ' :: '-' ::
    (natChars a ++ (optCountChars x? ++ (' ' :: '+' ::
      (natChars b ++ (optCountChars y? ++ tail)))))

/-- The end-point formula of the claim: the count defaults to 1 when
omitted; a count of 0 makes the end absent; otherwise
`end = start + count - 1`. -/
def claimEnd (s : Nat) : Option Nat → Option Int
  | none => some (s : Int)
  | some c => if c = 0 then none else some ((s : Int) + (c : Int) - 1)

theorem tryCount_comma (rest : List Char) :
    tryCount (',' :: rest) =
      match parseNatPrefix rest with
      | some (n, rest') => (some n, rest')
      | none => (none, ',' :: rest) := rfl

theorem tryCount_not_comma {c : Char} (h : c ≠ ',') (cs : List Char) :
    tryCount (c :: cs) = (none, c :: cs) := by
  unfold tryCount
  split
  · next heq => exact absurd (List.cons.injEq .. ▸ heq).1 h
  · rfl

theorem parseHunkLine_claim (a b : Nat) (x? y? : Option Nat) (ts : List Char) :
    parseHunkLine (claimHunkChars a x? b y? (' ' :: ts)) =
      some ((a : Int), claimEnd a x?, (b : Int), claimEnd b y?) := by
  have hend : ∀ (s : Nat) (o : Option Nat), claimEnd s o = hunkEndOf s o := by
    intro s o
    cases o <;> rfl
  rcases x? with _ | x <;> rcases y? with _ | y <;>
    simp only [claimHunkChars, optCountChars, parseHunkLine, List.nil_append,
      List.cons_append, List.append_assoc, hend] <;>
    rw [parseNatPrefix_natChars _ (headNotDigit_cons (by decide) _)] <;>
    simp only [Option.some_bind] <;>
    [rw [tryCount_not_comma (by decide)];
     rw [tryCount_not_comma (by decide)];
     rw [tryCount_comma, parseNatPrefix_natChars _ (headNotDigit_cons (by decide) _)];
     rw [tryCount_comma, parseNatPrefix_natChars _ (headNotDigit_cons (by decide) _)]] <;>
    simp only [expectSpacePlus, Option.some_bind] <;>
    rw [parseNatPrefix_natChars _ (headNotDigit_cons (by decide) _)] <;>
    simp only [Option.some_bind] <;>
    [rw [tryCount_not_comma (by decide)];
     rw [tryCount_comma, parseNatPrefix_natChars _ (headNotDigit_cons (by decide) _)];
     rw [tryCount_not_comma (by decide)];
     rw [tryCount_comma, parseNatPrefix_natChars _ (headNotDigit_cons (by decide) _)]]

/-! ## Claim theorems -/

/-- C3: a hunk-range line `@@ -a[,x] +b[,y] @@` attributed to a current
filename is recorded as the tuple `(a, a_end, b, b_end)` where the counts
default to 1 when omitted, `a_end` is absent when `x = 0` and otherwise
`a + x - 1`, and `b_end` is absent when `y = 0` and otherwise `b + y - 1`;
concretely `@@ -10,5 +12,5 @@` yields `(10, 14, 12, 16)`,
`@@ -4,0 +3 @@` yields an absent `a_end` with `b_end = 3`, and
`@@ -12 +13,0 @@` yields `a_end = 12` with an absent `b_end`. -/
theorem c3_hunk_header_parsing :
    (∀ (a b : Nat) (x? y? : Option Nat),
      parse_diff_segments
          ["+++ p/f\n", String.mk (claimHunkChars a x? b y? (' ' :: ['@', '@', '\n']))]
        = [("f", [((a : Int), claimEnd a x?, (b : Int), claimEnd b y?)])])
    ∧ parseHunkLine "@@ -10,5 +12,5 @@".data = some (10, some 14, 12, some 16)
    ∧ parseHunkLine "@@ -4,0 +3 @@".data = some (4, none, 3, some 3)
    ∧ parseHunkLine "@@ -12 +13,0 @@".data = some (12, some 12, 13, none) := by
  refine ⟨?_, by decide, by decide, by decide⟩
  intro a b x? y?
  have e1 : parseStep (none, []) "+++ p/f\n" = (some "f", []) := rfl
  have e2 : parseStep (some "f", [])
      (String.mk (claimHunkChars a x? b y? (' ' :: ['@', '@', '\n'])))
      = (some "f", [("f", [((a : Int), claimEnd a x?, (b : Int), claimEnd b y?)])]) := by
    unfold parseStep
    rw [show parseFileLine
        (String.mk (claimHunkChars a x? b y? (' ' :: ['@', '@', '\n']))).data = none from rfl]
    rw [show (String.mk (claimHunkChars a x? b y? (' ' :: ['@', '@', '\n']))).data
        = claimHunkChars a x? b y? (' ' :: ['@', '@', '\n']) from rfl]
    rw [parseHunkLine_claim]
    rfl
  show (List.foldl parseStep (none, []) _).2 = _
  rw [List.foldl_cons, e1, List.foldl_cons, e2, List.foldl_nil]

/-- C5 (divergence of the code from the claim): `Segment(100,200)` does
equal `Segment(100,200)`, but a `Segment` and a `FormatSegment` with the
same range compare unequal (the subclass's reflected `__eq__` runs first
and rejects non-`FormatSegment` operands), and two `FormatSegment`s with
different ranges but the same content compare equal (the
`super(Segment).__eq__(other)` call yields `NotImplemented`, which is
truthy, so the range is never compared). -/
theorem c5_equality_divergence :
    pyEq (.seg ⟨100, some 200⟩) (.seg ⟨100, some 200⟩) = true
    ∧ pyEq (.fseg ⟨1, some 1, ["x"]⟩) (.fseg ⟨2, some 5, ["x"]⟩) = true
    ∧ pyEq (.seg ⟨1, some 2⟩) (.fseg ⟨1, some 2, ["x"]⟩) = false
    ∧ pyEq (.fseg ⟨1, some 2, ["x"]⟩) (.seg ⟨1, some 2⟩) = false := by
  refine ⟨rfl, rfl, rfl, rfl⟩

/-- C8: `Segment` construction fails with a `ValidationError` exactly when
`start < 1`, or `end` is present and `end < 1` or `end < start`;
`FormatSegment` construction with an absent end and empty content fails
with a `ValidationError` for every start value; `format_range()` on a
segment without an end fails with a `NotARangeError`, and with an end it
returns the `"start:end"` string. -/
theorem c8_construction_and_range_errors :
    (∀ (s : Int) (e? : Option Int),
      mkSegment s e? = .error .validationError
        ↔ (s < 1 ∨ ∃ e, e? = some e ∧ (e < 1 ∨ e < s)))
    ∧ (∀ s : Int, mkFormatSegment s none [] = .error .validationError)
    ∧ (∀ s : Int, Segment.format_range ⟨s, none⟩ = .error .notARangeError)
    ∧ (∀ (s e : Int), Segment.format_range ⟨s, some e⟩
        = .ok (toString s ++ ":" ++ toString e)) := by
  have hnone : ∀ s : Int, mkSegment s none =
      if s < 1 then .error .validationError else .ok ⟨s, none⟩ := fun s => rfl
  have hsome : ∀ s e : Int, mkSegment s (some e) =
      if s < 1 then .error .validationError
      else if e < 1 then .error .validationError
      else if e < s then .error .validationError
      else .ok ⟨s, some e⟩ := fun s e => rfl
  refine ⟨?_, ?_, fun _ => rfl, fun _ _ => rfl⟩
  · intro s e?
    rcases e? with _ | e
    · rw [hnone]
      split_ifs with h1
      · simp [h1]
      · simp [h1]
    · rw [hsome]
      split_ifs with h1 h2 h3
      · simp [h1]
      · refine ⟨fun _ => Or.inr ⟨e, rfl, Or.inl h2⟩, fun _ => rfl⟩
      · refine ⟨fun _ => Or.inr ⟨e, rfl, Or.inr h3⟩, fun _ => rfl⟩
      · constructor
        · intro h
          exact absurd h (by simp)
        · rintro (hs | ⟨e', he', hlt⟩)
          · exact absurd hs h1
          · rw [Option.some.injEq] at he'
            subst he'
            rcases hlt with h | h <;> omega
  · intro s
    unfold mkFormatSegment
    simp

/-- C7: `patch_segments` fails with a `PreconditionError` exactly when base
or patch content is absent, `format_segments` exactly when patch or
formatted content is absent; on success the stored derived collection is
returned (no default is substituted on failure — the getter returns only
the error). -/
theorem c7_getter_preconditions (f : File) :
    (f.patch_segments = .error .preconditionError
      ↔ (f.base_contents = none ∨ f.patch_contents = none))
    ∧ (f.format_segments = .error .preconditionError
      ↔ (f.patch_contents = none ∨ f.formatted_contents = none))
    ∧ ((f.base_contents ≠ none ∧ f.patch_contents ≠ none) →
        f.patch_segments = .ok f.patch_segments_cache)
    ∧ ((f.patch_contents ≠ none ∧ f.formatted_contents ≠ none) →
        f.format_segments = .ok f.format_segments_cache) := by
  unfold File.patch_segments File.format_segments
  refine ⟨?_, ?_, fun hp => ?_, fun hp => ?_⟩
  · split_ifs with h
    · exact ⟨fun _ => h, fun _ => rfl⟩
    · refine ⟨fun hc => ?_, fun hc => absurd hc h⟩
      cases hc
  · split_ifs with h
    · exact ⟨fun _ => h, fun _ => rfl⟩
    · refine ⟨fun hc => ?_, fun hc => absurd hc h⟩
      cases hc
  · split_ifs with h
    · rcases h with h | h
      · exact absurd h hp.1
      · exact absurd h hp.2
    · rfl
  · split_ifs with h
    · rcases h with h | h
      · exact absurd h hp.1
      · exact absurd h hp.2
    · rfl

/-- C7 witness: a `File` with base and patch content returns its stored
patch segments. -/
theorem c7_getter_preconditions_witness :
    (File.init "f" (some ["a\n"]) (some ["b\n"])).1.patch_segments
      = .ok (File.init "f" (some ["a\n"]) (some ["b\n"])).1.patch_segments_cache :=
  (c7_getter_preconditions _).2.2.1 ⟨by decide, by decide⟩

/-- C9: lines seen before the first after-file header (ones not matching
the `+++ ` pattern) contribute nothing — the parse of `pre ++ rest` equals
the parse of `rest`, and an input with no header line at all parses to the
empty mapping; the parser is a total function, so an empty mapping is the
only parse-failure signal. -/
theorem c9_parser_skips_and_empty (pre rest : List String)
    (h : ∀ l ∈ pre, parseFileLine l.data = none) :
    parse_diff_segments (pre ++ rest) = parse_diff_segments rest
    ∧ parse_diff_segments pre = [] := by
  have key : ∀ (ls : List String), (∀ l ∈ ls, parseFileLine l.data = none) →
      ∀ m : SegMap, List.foldl parseStep (none, m) ls = (none, m) := by
    intro ls
    induction ls with
    | nil => intro _ m; rfl
    | cons l ls ih =>
      intro hls m
      rw [List.foldl_cons,
        show parseStep (none, m) l = (none, m) by
          unfold parseStep
          rw [hls l (by simp)]]
      exact ih (fun x hx => hls x (by simp [hx])) m
  constructor
  · show (List.foldl parseStep (none, []) (pre ++ rest)).2 = _
    rw [List.foldl_append, key pre h]
    rfl
  · show (List.foldl parseStep (none, []) pre).2 = []
    rw [key pre h]

/-- C9 witness: a hunk line before any header is skipped, and a
header-free input parses to the empty mapping. -/
theorem c9_parser_skips_and_empty_witness :
    parse_diff_segments (["@@ -1 +1 @@\n"] ++ ["+++ a/f\n", "@@ -2 +3 @@\n"])
      = parse_diff_segments ["+++ a/f\n", "@@ -2 +3 @@\n"]
    ∧ parse_diff_segments ["@@ -1 +1 @@\n"] = [] :=
  c9_parser_skips_and_empty _ _ (by decide)

/-- C2 (amended): when the assigned value equals the current
`patch_contents`, the stored `formatted_contents` is left unchanged (not
reset to absent); in particular when no formatted content had been stored
before, it stays absent and a `format_segments` query fails with a
`PreconditionError`. -/
theorem c2_noop_assignment_amended (f : File) (v : Option (List String))
    (h : f.patch_contents = v) :
    (f.set_formatted_contents v).1.formatted_contents = f.formatted_contents
    ∧ (f.formatted_contents = none →
        (f.set_formatted_contents v).1.format_segments = .error .preconditionError) := by
  have hf : f.set_formatted_contents v =
      ({ f with format_segments_cache :=
          (calcFormattedSegmentsRun f.patch_contents f.formatted_contents).1 },
        (calcFormattedSegmentsRun f.patch_contents f.formatted_contents).2) := by
    unfold File.set_formatted_contents
    rw [if_neg (by simp [h])]
  rw [hf]
  refine ⟨rfl, fun h2 => ?_⟩
  unfold File.format_segments
  simp [h2]

/-- C2 witness: assigning a fresh `File`'s patch content as its formatted
content leaves `formatted_contents` absent and `format_segments` failing. -/
theorem c2_noop_assignment_amended_witness :
    ((File.init "f" none (some ["a\n"])).1.set_formatted_contents
        (some ["a\n"])).1.formatted_contents
      = (File.init "f" none (some ["a\n"])).1.formatted_contents
    ∧ ((File.init "f" none (some ["a\n"])).1.formatted_contents = none →
        ((File.init "f" none (some ["a\n"])).1.set_formatted_contents
            (some ["a\n"])).1.format_segments = .error .preconditionError) :=
  c2_noop_assignment_amended _ _ (by decide)

/-- C2 counterexample: with formatted content stored earlier, assigning a
value equal to `patch_contents` does *not* store absent — the old value
survives and a `format_segments` query succeeds, contrary to the claim. -/
theorem c2_noop_assignment_counterexample :
    ((((File.init "f" none (some ["a\n"])).1.set_formatted_contents
          (some ["b\n"])).1.set_formatted_contents (some ["a\n"])).1.formatted_contents
        = some ["b\n"])
    ∧ ((((File.init "f" none (some ["a\n"])).1.set_formatted_contents
          (some ["b\n"])).1.set_formatted_contents (some ["a\n"])).1.format_segments
        = .ok [⟨1, some 1, ["b\n"]⟩]) := by
  exact ⟨rfl, rfl⟩

/-- C1 (amended): the base/patch setters recompute `patch_segments` from
the now-current snapshots before returning, and the formatted setter
recomputes `format_segments`; but the base/patch setters leave
`format_segments` untouched (possibly stale). -/
theorem c1_setter_recompute_amended (f : File) (v : Option (List String)) :
    ((f.set_base_contents v).1.patch_segments_cache
        = (calcPatchSegmentsRun (f.set_base_contents v).1.base_contents
            (f.set_base_contents v).1.patch_contents).1
      ∧ (f.set_base_contents v).1.format_segments_cache = f.format_segments_cache)
    ∧ ((f.set_patch_contents v).1.patch_segments_cache
        = (calcPatchSegmentsRun (f.set_patch_contents v).1.base_contents
            (f.set_patch_contents v).1.patch_contents).1
      ∧ (f.set_patch_contents v).1.format_segments_cache = f.format_segments_cache)
    ∧ ((f.set_formatted_contents v).1.format_segments_cache
        = (calcFormattedSegmentsRun (f.set_formatted_contents v).1.patch_contents
            (f.set_formatted_contents v).1.formatted_contents).1) := by
  refine ⟨⟨rfl, rfl⟩, ⟨rfl, rfl⟩, ?_⟩
  unfold File.set_formatted_contents
  split_ifs <;> rfl

/-- C1 counterexample: after `set_patch_contents`, `format_segments` is
stale — the cache differs from a full recomputation from the now-current
snapshots, and a query returns the stale segments. -/
theorem c1_stale_format_segments_counterexample :
    ((((File.init "f" none (some ["a\n"])).1.set_formatted_contents
          (some ["b\n"])).1.set_patch_contents
          (some ["b\n", "c\n"])).1.format_segments_cache
        = [⟨1, some 1, ["b\n"]⟩])
    ∧ ((calcFormattedSegmentsRun
          (some ["b\n", "c\n"]) (some ["b\n"])).1 = [⟨2, some 2, []⟩])
    ∧ ((((File.init "f" none (some ["a\n"])).1.set_formatted_contents
          (some ["b\n"])).1.set_patch_contents
          (some ["b\n", "c\n"])).1.format_segments
        = .ok [⟨1, some 1, ["b\n"]⟩]) := by
  refine ⟨rfl, rfl, rfl⟩

/-- C10: the format-segment recompute is not total: when the formatter
output adds lines before line 1, the zero-context diff hunk is
`@@ -0,0 +1,N @@`, whose parsed tuple has `a_start = 0`, so the recompute
constructs `FormatSegment(0, None, content)` and the `start < 1` check
raises a `ValidationError` out of the formatted-contents setter. -/
theorem c10_recompute_not_total :
    (((File.init "f" none (some ["b\n"])).1.set_formatted_contents
        (some ["a\n", "b\n"])).2 = some .validationError)
    ∧ (lookupSegMap
        (parse_diff_segments
          (unifiedDiff0 ["b\n"] ["a\n", "b\n"] "patch/file" "formatted/file"))
        "file" = some [(0, none, 1, some 1)])
    ∧ (mkFormatSegment 0 none ["a\n"] = .error .validationError) := by
  refine ⟨rfl, rfl, rfl⟩

/-! ## C6: patch segments and the deletion filter -/

theorem mkSegment_none_eq (s : Int) :
    mkSegment s none
      = if s < 1 then .error .validationError else .ok ⟨s, none⟩ := rfl

theorem mkSegment_some_eq (s e : Int) :
    mkSegment s (some e)
      = if s < 1 then .error .validationError
        else if e < 1 then .error .validationError
        else if e < s then .error .validationError
        else .ok ⟨s, some e⟩ := rfl

theorem mkSegment_ok {s : Int} {e? : Option Int} {seg : Segment}
    (h : mkSegment s e? = .ok seg) : seg = ⟨s, e?⟩ := by
  rcases e? with _ | e
  · rw [mkSegment_none_eq] at h
    split_ifs at h
    simp only [Except.ok.injEq] at h
    exact h.symm
  · rw [mkSegment_some_eq] at h
    split_ifs at h
    simp only [Except.ok.injEq] at h
    exact h.symm

theorem mkFormatSegment_ok {s : Int} {e? : Option Int} {c : List String}
    {fs : FormatSegment} (h : mkFormatSegment s e? c = .ok fs) :
    fs = ⟨s, e?, c⟩ ∧ ¬(e? = none ∧ c.length = 0) := by
  unfold mkFormatSegment at h
  split at h
  · cases h
  · next hcond =>
    refine ⟨?_, hcond⟩
    split at h
    · cases h
    · simp only [Except.ok.injEq] at h
      exact h.symm

theorem patchSegLoop_spec :
    ∀ (tuples : List DiffTuple) (acc segs : List Segment),
      patchSegLoop acc tuples = (segs, none) →
      (∀ s ∈ segs, s ∈ acc ∨ s.stop ≠ none)
      ∧ segs.length = acc.length
          + (tuples.filter (fun t => t.2.2.2 ≠ none)).length := by
  intro tuples
  induction tuples with
  | nil =>
    intro acc segs h
    obtain rfl : acc = segs := congrArg Prod.fst h
    exact ⟨fun s hs => Or.inl hs, by simp⟩
  | cons t rest ih =>
    intro acc segs h
    obtain ⟨a, ae, bs, be⟩ := t
    cases be with
    | none =>
      have hstep : patchSegLoop acc ((a, ae, bs, none) :: rest)
          = patchSegLoop acc rest := rfl
      rw [hstep] at h
      obtain ⟨h1, h2⟩ := ih acc segs h
      refine ⟨h1, ?_⟩
      rw [List.filter_cons_of_neg (by simp)]
      exact h2
    | some e =>
      have hstep : patchSegLoop acc ((a, ae, bs, some e) :: rest)
          = match mkSegment bs (some e) with
            | .error err => (acc, some err)
            | .ok s => patchSegLoop (acc ++ [s]) rest := rfl
      rw [hstep] at h
      cases hmk : mkSegment bs (some e) with
      | error err =>
        rw [hmk] at h
        exact absurd (congrArg Prod.snd h) (by simp)
      | ok s0 =>
        rw [hmk] at h
        obtain ⟨h1, h2⟩ := ih (acc ++ [s0]) segs h
        have hs0 : s0 = ⟨bs, some e⟩ := mkSegment_ok hmk
        constructor
        · intro s hs
          rcases h1 s hs with hmem | hstop
          · rcases List.mem_append.mp hmem with hm | hm
            · exact Or.inl hm
            · right
              simp only [List.mem_singleton] at hm
              rw [hm, hs0]
              simp
          · exact Or.inr hstop
        · rw [h2, List.filter_cons_of_pos (by simp)]
          simp only [List.length_append, List.length_cons, List.length_nil]
          omega

/-- C6: every segment the patch-segment recompute produces has a present
end — diff tuples whose `b_end` is absent (before-file pure deletions) are
never turned into patch segments, and each remaining tuple yields exactly
one segment. -/
theorem c6_patch_segments_have_end (base patch : List String)
    (segs : List Segment)
    (h : calcPatchSegmentsRun (some base) (some patch) = (segs, none)) :
    (∀ s ∈ segs, s.stop ≠ none)
    ∧ segs.length
        = (((lookupSegMap
              (parse_diff_segments (unifiedDiff0 base patch "base/file" "patch/file"))
              "file").getD []).filter (fun t => t.2.2.2 ≠ none)).length := by
  have hrun : ∀ (r : Option (List DiffTuple)),
      lookupSegMap
        (parse_diff_segments (unifiedDiff0 base patch "base/file" "patch/file"))
        "file" = r →
      calcPatchSegmentsRun (some base) (some patch)
        = match r with
          | none => ([], none)
          | some tuples => patchSegLoop [] tuples := by
    intro r hr
    subst hr
    rfl
  cases hl : lookupSegMap
      (parse_diff_segments (unifiedDiff0 base patch "base/file" "patch/file")) "file" with
  | none =>
    rw [hrun none hl] at h
    obtain rfl : segs = [] := (congrArg Prod.fst h).symm
    simp [hl]
  | some tuples =>
    rw [hrun (some tuples) hl] at h
    obtain ⟨h1, h2⟩ := patchSegLoop_spec tuples [] segs h
    refine ⟨fun s hs => (h1 s hs).resolve_left (by simp), ?_⟩
    rw [h2]
    simp

/-- C6 witness: a one-line replacement yields one segment with a present
end. -/
theorem c6_patch_segments_have_end_witness :
    (∀ s ∈ [(⟨1, some 1⟩ : Segment)], s.stop ≠ none)
    ∧ [(⟨1, some 1⟩ : Segment)].length
        = (((lookupSegMap
              (parse_diff_segments (unifiedDiff0 ["a\n"] ["b\n"] "base/file" "patch/file"))
              "file").getD []).filter (fun t => t.2.2.2 ≠ none)).length :=
  c6_patch_segments_have_end ["a\n"] ["b\n"] [⟨1, some 1⟩] rfl

/-! ## C4: hunk tuples coming out of a rendered diff have well-formed
after-file ranges, and the format-segment recompute maps them pointwise -/

/-- A parsed tuple whose `b_end`, when present, is at least 1 and bounds
`b_start` from above: what every tuple parsed from a rendered
`unified_diff` header satisfies. -/
def QTuple (t : DiffTuple) : Prop :=
  ∀ e : Int, t.2.2.2 = some e → 1 ≤ t.2.2.1 ∧ t.2.2.1 ≤ e

/-- The number which `_format_range_unified` prints before the optional
comma. -/
def frNum (start stop : Nat) : Nat :=
  if stop - start = 1 then start + 1
  else if stop - start = 0 then start
  else start + 1

/-- The count (after the comma) which `_format_range_unified` prints, if
any. -/
def frCnt (start stop : Nat) : Option Nat :=
  if stop - start = 1 then none else some (stop - start)

theorem formatRange_chars (s e : Nat) :
    (formatRangeUnified s e).data
      = natChars (frNum s e) ++ optCountChars (frCnt s e) := by
  have hmk : ∀ cs : List Char, (String.mk cs).data = cs := fun _ => rfl
  unfold formatRangeUnified frNum frCnt
  split_ifs <;> simp_all [optCountChars, String.data_append, hmk]

theorem hunkHeaderLine_chars (g : List Opcode) :
    (hunkHeaderLine g).data
      = claimHunkChars
          (frNum (g.headD ⟨.equal, 0, 0, 0, 0⟩).i1 (g.getLastD ⟨.equal, 0, 0, 0, 0⟩).i2)
          (frCnt (g.headD ⟨.equal, 0, 0, 0, 0⟩).i1 (g.getLastD ⟨.equal, 0, 0, 0, 0⟩).i2)
          (frNum (g.headD ⟨.equal, 0, 0, 0, 0⟩).j1 (g.getLastD ⟨.equal, 0, 0, 0, 0⟩).j2)
          (frCnt (g.headD ⟨.equal, 0, 0, 0, 0⟩).j1 (g.getLastD ⟨.equal, 0, 0, 0, 0⟩).j2)
          [' ', '@', '@', '\n'] := by
  have hmk : ∀ cs : List Char, (String.mk cs).data = cs := fun _ => rfl
  unfold hunkHeaderLine claimHunkChars
  simp [String.data_append, formatRange_chars, hmk, List.append_assoc]

theorem parseHunkLine_headerLine (g : List Opcode) :
    parseHunkLine (hunkHeaderLine g).data
      = some
        ((↑(frNum (g.headD ⟨.equal, 0, 0, 0, 0⟩).i1 (g.getLastD ⟨.equal, 0, 0, 0, 0⟩).i2) : Int),
          claimEnd (frNum (g.headD ⟨.equal, 0, 0, 0, 0⟩).i1 (g.getLastD ⟨.equal, 0, 0, 0, 0⟩).i2)
            (frCnt (g.headD ⟨.equal, 0, 0, 0, 0⟩).i1 (g.getLastD ⟨.equal, 0, 0, 0, 0⟩).i2),
          (↑(frNum (g.headD ⟨.equal, 0, 0, 0, 0⟩).j1 (g.getLastD ⟨.equal, 0, 0, 0, 0⟩).j2) : Int),
          claimEnd (frNum (g.headD ⟨.equal, 0, 0, 0, 0⟩).j1 (g.getLastD ⟨.equal, 0, 0, 0, 0⟩).j2)
            (frCnt (g.headD ⟨.equal, 0, 0, 0, 0⟩).j1 (g.getLastD ⟨.equal, 0, 0, 0, 0⟩).j2)) := by
  rw [hunkHeaderLine_chars]
  exact parseHunkLine_claim _ _ _ _ ['@', '@', '\n']

/-- The b-side range formula printed by `_format_range_unified` always
satisfies `QTuple`. -/
theorem claimEnd_fr_good (j1 j2 : Nat) :
    ∀ e : Int, claimEnd (frNum j1 j2) (frCnt j1 j2) = some e →
      1 ≤ (frNum j1 j2 : Int) ∧ (frNum j1 j2 : Int) ≤ e := by
  intro e he
  by_cases h1 : j2 - j1 = 1
  · simp only [frCnt, if_pos h1, claimEnd, Option.some.injEq] at he
    subst he
    refine ⟨?_, le_refl _⟩
    unfold frNum
    rw [if_pos h1]
    omega
  · by_cases h0 : j2 - j1 = 0
    · simp only [frCnt, if_neg h1, claimEnd, h0, if_pos rfl] at he
      cases he
    · simp only [frCnt, if_neg h1, claimEnd, if_neg h0, Option.some.injEq] at he
      subst he
      unfold frNum
      rw [if_neg h1, if_neg h0]
      constructor <;> omega

theorem qtuple_headerLine (g : List Opcode) :
    ∀ t, parseHunkLine (hunkHeaderLine g).data = some t → QTuple t := by
  intro t ht
  rw [parseHunkLine_headerLine] at ht
  simp only [Option.some.injEq] at ht
  subst ht
  intro e he
  exact claimEnd_fr_good _ _ e he

theorem parseHunkLine_ne_at {c : Char} (hc : c ≠ '@') (cs : List Char) :
    parseHunkLine (c :: cs) = none := by
  unfold parseHunkLine
  split
  · next heq => exact absurd (List.cons.injEq .. ▸ heq).1 hc
  · rfl

theorem opcodeLines_no_hunk (a b : List String) (c : Opcode) :
    ∀ l ∈ opcodeLines a b c, parseHunkLine l.data = none := by
  intro l hl
  obtain ⟨tag, i1, i2, j1, j2⟩ := c
  cases tag <;>
    simp only [opcodeLines, List.mem_map, List.mem_append] at hl
  case replace =>
    rcases hl with ⟨x, _, rfl⟩ | ⟨x, _, rfl⟩
    · exact parseHunkLine_ne_at (by decide) _
    · exact parseHunkLine_ne_at (by decide) _
  case delete =>
    obtain ⟨x, _, rfl⟩ := hl
    exact parseHunkLine_ne_at (by decide) _
  case insert =>
    obtain ⟨x, _, rfl⟩ := hl
    exact parseHunkLine_ne_at (by decide) _
  case equal =>
    obtain ⟨x, _, rfl⟩ := hl
    exact parseHunkLine_ne_at (by decide) _

/-- Every line of the rendered diff either fails the hunk regex or is a
rendered `@@` header, whose tuple satisfies `QTuple`. -/
theorem unifiedDiff0_lines_sound (a b : List String) (ff tf : String) :
    ∀ l ∈ unifiedDiff0 a b ff tf, ∀ t, parseHunkLine l.data = some t → QTuple t := by
  intro l hl t ht
  simp only [unifiedDiff0] at hl
  split at hl
  · exact absurd hl (List.not_mem_nil l)
  · rcases List.mem_cons.mp hl with rfl | hl2
    · rw [show ("--- " ++ ff ++ "\n").data = '-' :: ("-- " ++ ff ++ "\n").data from rfl,
        parseHunkLine_ne_at (by decide)] at ht
      cases ht
    · rcases List.mem_cons.mp hl2 with rfl | hl3
      · rw [show ("+++ " ++ tf ++ "\n").data = '+' :: ("++ " ++ tf ++ "\n").data from rfl,
          parseHunkLine_ne_at (by decide)] at ht
        cases ht
      · rw [List.mem_flatMap] at hl3
        obtain ⟨g, _, hlg⟩ := hl3
        rcases List.mem_cons.mp hlg with rfl | hlc
        · exact qtuple_headerLine g t ht
        · rw [List.mem_flatMap] at hlc
          obtain ⟨c, _, hlc2⟩ := hlc
          rw [opcodeLines_no_hunk a b c l hlc2] at ht
          cases ht

/-! Case characterizations of one `parse_diff_segments` loop iteration. -/

theorem parseStep_file_hunk {line : String} {f : String} {t : DiffTuple}
    (st : Option String × SegMap) (h1 : parseFileLine line.data = some f)
    (h2 : parseHunkLine line.data = some t) :
    parseStep st line = (some f, addTuple st.2 f t) := by
  unfold parseStep
  rw [h1, h2]

theorem parseStep_file_nohunk {line : String} {f : String}
    (st : Option String × SegMap) (h1 : parseFileLine line.data = some f)
    (h2 : parseHunkLine line.data = none) :
    parseStep st line = (some f, st.2) := by
  unfold parseStep
  rw [h1, h2]

theorem parseStep_nofile_hunk {line : String} {f : String} {t : DiffTuple}
    {st : Option String × SegMap} (h1 : parseFileLine line.data = none)
    (h0 : st.1 = some f) (h2 : parseHunkLine line.data = some t) :
    parseStep st line = (some f, addTuple st.2 f t) := by
  unfold parseStep
  rw [h1, h0, h2]

theorem parseStep_nofile_nohunk {line : String} {f : String}
    {st : Option String × SegMap} (h1 : parseFileLine line.data = none)
    (h0 : st.1 = some f) (h2 : parseHunkLine line.data = none) :
    parseStep st line = (some f, st.2) := by
  unfold parseStep
  rw [h1, h0, h2]

theorem parseStep_nofile_none {line : String}
    {st : Option String × SegMap} (h1 : parseFileLine line.data = none)
    (h0 : st.1 = none) :
    parseStep st line = (none, st.2) := by
  unfold parseStep
  rw [h1, h0]

theorem mem_lookup_addTuple :
    ∀ (m : SegMap) (f : String) (t : DiffTuple) (g : String) (ts : List DiffTuple),
      lookupSegMap (addTuple m f t) g = some ts →
      ∀ x ∈ ts, (∃ ts0, lookupSegMap m g = some ts0 ∧ x ∈ ts0) ∨ x = t := by
  intro m
  induction m with
  | nil =>
    intro f t g ts h x hx
    unfold addTuple lookupSegMap at h
    split at h
    · next hfg =>
      simp only [Option.some.injEq] at h
      subst h
      simp only [List.mem_singleton] at hx
      exact Or.inr hx
    · cases h
  | cons p rest ih =>
    obtain ⟨g0, ts0⟩ := p
    intro f t g ts h x hx
    unfold addTuple at h
    split at h
    · next hg0f =>
      unfold lookupSegMap at h
      split at h
      · next hg0g =>
        simp only [Option.some.injEq] at h
        subst h
        rcases List.mem_append.mp hx with hm | hm
        · exact Or.inl ⟨ts0, by unfold lookupSegMap; rw [if_pos hg0g], hm⟩
        · simp only [List.mem_singleton] at hm
          exact Or.inr hm
      · next hg0g =>
        exact Or.inl ⟨ts, by unfold lookupSegMap; rw [if_neg hg0g]; exact h, hx⟩
    · next hg0f =>
      unfold lookupSegMap at h
      split at h
      · next hg0g =>
        simp only [Option.some.injEq] at h
        subst h
        exact Or.inl ⟨ts0, by unfold lookupSegMap; rw [if_pos hg0g], hx⟩
      · next hg0g =>
        refine (ih f t g ts h x hx).imp ?_ id
        rintro ⟨ts1, h1, h2⟩
        exact ⟨ts1, by unfold lookupSegMap; rw [if_neg hg0g]; exact h1, h2⟩

/-- Fold invariant: if every line's parsed tuple satisfies `P` and the
accumulated map only holds `P`-tuples, the final map only holds
`P`-tuples. -/
theorem parse_tuples_sound (P : DiffTuple → Prop) :
    ∀ (lines : List String) (st : Option String × SegMap),
      (∀ l ∈ lines, ∀ t, parseHunkLine l.data = some t → P t) →
      (∀ g ts, lookupSegMap st.2 g = some ts → ∀ t ∈ ts, P t) →
      ∀ g ts, lookupSegMap (List.foldl parseStep st lines).2 g = some ts →
        ∀ t ∈ ts, P t := by
  intro lines
  induction lines with
  | nil => exact fun st _ hst => hst
  | cons l ls ih =>
    intro st hl hst
    rw [List.foldl_cons]
    refine ih (parseStep st l) (fun x hx => hl x (by simp [hx])) ?_
    have hmap : (parseStep st l).2 = st.2
        ∨ ∃ f t0, parseHunkLine l.data = some t0
            ∧ (parseStep st l).2 = addTuple st.2 f t0 := by
      cases h1 : parseFileLine l.data with
      | some f =>
        cases h2 : parseHunkLine l.data with
        | some t0 => exact Or.inr ⟨f, t0, rfl, by rw [parseStep_file_hunk st h1 h2]⟩
        | none => exact Or.inl (by rw [parseStep_file_nohunk st h1 h2])
      | none =>
        cases h0 : st.1 with
        | some f =>
          cases h2 : parseHunkLine l.data with
          | some t0 => exact Or.inr ⟨f, t0, rfl, by rw [parseStep_nofile_hunk h1 h0 h2]⟩
          | none => exact Or.inl (by rw [parseStep_nofile_nohunk h1 h0 h2])
        | none => exact Or.inl (by rw [parseStep_nofile_none h1 h0])
    rcases hmap with heq | ⟨f, t0, ht0, heq⟩
    · rw [heq]
      exact hst
    · rw [heq]
      intro g ts h t ht
      rcases mem_lookup_addTuple st.2 f t0 g ts h t ht with ⟨ts1, hl1, hm1⟩ | rfl
      · exact hst g ts1 hl1 t hm1
      · exact hl l (by simp) t ht0

theorem pySliceInt_nonneg (l : List String) {i j : Int} (hi : 0 ≤ i) (hj : 0 ≤ j) :
    pySliceInt l i j = (l.take j.toNat).drop i.toNat := by
  unfold pySliceInt pySliceIdx
  rw [if_neg (by omega), if_neg (by omega)]
  have htake : l.take (min j.toNat l.length) = l.take j.toNat := by
    rw [List.take_eq_take]
    rw [Nat.min_assoc, Nat.min_self]
  rw [htake]
  rcases Nat.le_total i.toNat l.length with hle | hle
  · rw [Nat.min_eq_left hle]
  · rw [Nat.min_eq_right hle, List.drop_eq_nil_of_le, List.drop_eq_nil_of_le]
    · rw [List.length_take]
      omega
    · rw [List.length_take]
      omega

/-- The per-tuple mapping of `_calculate_formatted_segments` described by
the claim: a tuple with absent `b_end` becomes `FormatSegment(a_start,
a_end, [])` classified `DELETION`; otherwise the segment carries
`start = a_start`, `end = a_end` (absent exactly when `a_end` is absent),
replacement content `formatted[b_start-1 .. b_end-1]` sliced from the
formatted snapshot, and is an `INSERTION` when `a_end` is absent. -/
def FmtRel (formatted : List String) (s : FormatSegment) (t : DiffTuple) : Prop :=
  (t.2.2.2 = none → s = ⟨t.1, t.2.1, []⟩ ∧ s.reformat_type = .DELETION)
  ∧ ∀ e : Int, t.2.2.2 = some e →
      s.start = t.1 ∧ s.stop = t.2.1
      ∧ s.formatted_content = (formatted.take e.toNat).drop (t.2.2.1 - 1).toNat
      ∧ (t.2.1 = none → s.reformat_type = .INSERTION)

theorem formatSegLoop_rel (formatted : List String) :
    ∀ (tuples : List DiffTuple) (acc segs : List FormatSegment),
      (∀ t ∈ tuples, QTuple t) →
      formatSegLoop formatted acc tuples = (segs, none) →
      ∃ out, segs = acc ++ out ∧ List.Forall₂ (FmtRel formatted) out tuples := by
  intro tuples
  induction tuples with
  | nil =>
    intro acc segs _ h
    obtain rfl : acc = segs := congrArg Prod.fst h
    exact ⟨[], by simp, List.Forall₂.nil⟩
  | cons t rest ih =>
    intro acc segs hq h
    obtain ⟨a, ae, bs, be⟩ := t
    have hstep : formatSegLoop formatted acc ((a, ae, bs, be) :: rest)
        = if be = none ∨ be = some 0 then
            match mkFormatSegment a ae [] with
            | .error err => (acc, some err)
            | .ok s => formatSegLoop formatted (acc ++ [s]) rest
          else
            match mkFormatSegment a ae (pySliceInt formatted (bs - 1) (be.getD 0)) with
            | .error err => (acc, some err)
            | .ok s => formatSegLoop formatted (acc ++ [s]) rest := rfl
    rw [hstep] at h
    by_cases hbe : be = none ∨ be = some 0
    · rw [if_pos hbe] at h
      have hbn : be = none := by
        rcases hbe with hbe | hbe
        · exact hbe
        · exfalso
          have := hq (a, ae, bs, be) (by simp) 0 (by rw [hbe])
          omega
      subst hbn
      cases hmk : mkFormatSegment a ae [] with
      | error err =>
        rw [hmk] at h
        exact absurd (congrArg Prod.snd h) (by simp)
      | ok s0 =>
        rw [hmk] at h
        obtain ⟨hs0, hside⟩ := mkFormatSegment_ok hmk
        obtain ⟨out, hout, hrel⟩ :=
          ih (acc ++ [s0]) segs (fun t ht => hq t (by simp [ht])) h
        refine ⟨s0 :: out, by rw [hout]; simp, List.Forall₂.cons ?_ hrel⟩
        constructor
        · intro _
          refine ⟨hs0, ?_⟩
          have hae : ae ≠ none := fun hh => hside ⟨hh, rfl⟩
          rw [hs0]
          cases ae with
          | none => exact absurd rfl hae
          | some ae0 => rfl
        · intro e he
          cases he
    · rw [if_neg hbe] at h
      obtain ⟨e, rfl⟩ : ∃ e, be = some e := by
        cases be with
        | none => exact absurd (Or.inl rfl) hbe
        | some e => exact ⟨e, rfl⟩
      obtain ⟨hbs1, hbse⟩ := hq (a, ae, bs, some e) (by simp) e rfl
      cases hmk : mkFormatSegment a ae (pySliceInt formatted (bs - 1) ((some e).getD 0)) with
      | error err =>
        rw [hmk] at h
        exact absurd (congrArg Prod.snd h) (by simp)
      | ok s0 =>
        rw [hmk] at h
        obtain ⟨hs0, hside⟩ := mkFormatSegment_ok hmk
        obtain ⟨out, hout, hrel⟩ :=
          ih (acc ++ [s0]) segs (fun t ht => hq t (by simp [ht])) h
        refine ⟨s0 :: out, by rw [hout]; simp,
          List.Forall₂.cons ⟨fun hc => (by cases hc), fun e' he' => ?_⟩ hrel⟩
        have he2 : e = e' := by simpa using he'
        subst he2
        have hbs1' : (1 : Int) ≤ bs := hbs1
        have hbse' : bs ≤ e := hbse
        refine ⟨by rw [hs0], by rw [hs0], ?_, ?_⟩
        · rw [hs0]
          show pySliceInt formatted (bs - 1) ((some e : Option Int).getD 0) = _
          rw [show ((some e : Option Int).getD 0) = e from rfl,
            pySliceInt_nonneg formatted (by omega) (by omega)]
        · intro hae
          have hae2 : ae = none := hae
          rw [hs0, hae2]
          rfl

/-- C4: when both snapshots are present and the recompute succeeds, the
produced format segments correspond pointwise, in input order, to the
parsed diff tuples: absent `b_end` gives `FormatSegment(a_start, a_end,
[])` classified `DELETION`; otherwise the segment carries `start =
a_start`, `end = a_end` (absent exactly when `a_end` is), and replacement
content sliced from `formatted_contents[b_start-1 .. b_end-1]`, an
`INSERTION` when `a_end` is absent. -/
theorem c4_format_recompute_pointwise (patch formatted : List String)
    (segs : List FormatSegment)
    (h : calcFormattedSegmentsRun (some patch) (some formatted) = (segs, none)) :
    List.Forall₂ (FmtRel formatted) segs
      ((lookupSegMap (parse_diff_segments
          (unifiedDiff0 patch formatted "patch/file" "formatted/file")) "file").getD []) := by
  have hrun : ∀ (r : Option (List DiffTuple)),
      lookupSegMap (parse_diff_segments
          (unifiedDiff0 patch formatted "patch/file" "formatted/file")) "file" = r →
      calcFormattedSegmentsRun (some patch) (some formatted)
        = match r with
          | none => ([], some .keyError)
          | some tuples => formatSegLoop formatted [] tuples := by
    intro r hr
    subst hr
    rfl
  cases hl : lookupSegMap (parse_diff_segments
      (unifiedDiff0 patch formatted "patch/file" "formatted/file")) "file" with
  | none =>
    rw [hrun none hl] at h
    exact absurd (congrArg Prod.snd h) (by simp)
  | some tuples =>
    rw [hrun (some tuples) hl] at h
    have hq : ∀ t ∈ tuples, QTuple t :=
      parse_tuples_sound QTuple _ (none, [])
        (unifiedDiff0_lines_sound patch formatted _ _)
        (fun g ts hts => by simp [lookupSegMap] at hts)
        "file" tuples hl
    obtain ⟨out, hout, hrel⟩ := formatSegLoop_rel formatted tuples [] segs hq h
    simp only [List.nil_append] at hout
    subst hout
    simpa using hrel

/-- C4 witness: a formatter output that only removes one line inside an
unchanged region produces exactly one `FormatSegment`, related to the
single parsed tuple as a `DELETION` with empty content. -/
theorem c4_format_recompute_pointwise_witness :
    List.Forall₂ (FmtRel ["a\n", "b\n", "c\n"])
      [⟨3, some 3, []⟩]
      ((lookupSegMap (parse_diff_segments
          (unifiedDiff0 ["a\n", "b\n", "b\n", "c\n"] ["a\n", "b\n", "c\n"]
            "patch/file" "formatted/file")) "file").getD []) :=
  c4_format_recompute_pointwise ["a\n", "b\n", "b\n", "c\n"] ["a\n", "b\n", "c\n"]
    [⟨3, some 3, []⟩] rfl

end HaikuFormatBot
